import Mathlib

/-!
Verification of the `@prisma/sqlcommenter` comment-assembly pipeline.

The repository ships the type declarations of the sqlcommenter plugin
interface (`src/packages/sqlcommenter/src/index.ts`) and its README.  The
data model below is embedded from those declarations.  The comment-assembly
pipeline itself (encoder, merger, contributor runner, formatter, appender)
is not part of the repository's source files, so those operations are
modelled from the specification, as marked on each definition.
-/

namespace SqlCommenter

/-- Embedded from `src/packages/sqlcommenter/src/index.ts`
(`SqlCommenterSingleQueryInfo`): information about a single Prisma query.
The `query : unknown` payload is never inspected by the core, so it is
modelled by a type parameter `Q`. -/
structure SqlCommenterSingleQueryInfo (Q : Type) where
  modelName : Option String
  action : String
  query : Q

/-- Embedded from `src/packages/sqlcommenter/src/index.ts`
(`SqlCommenterQueryInfo`): the tagged union of a single query and a
compacted batch of queries. -/
inductive SqlCommenterQueryInfo (Q : Type) where
  | single (info : SqlCommenterSingleQueryInfo Q)
  | compacted (queries : List (SqlCommenterSingleQueryInfo Q))

/-- Embedded from `src/packages/sqlcommenter/src/index.ts`
(`SqlCommenterContext`): the context handed to every plugin, wrapping
exactly one query descriptor. -/
structure SqlCommenterContext (Q : Type) where
  query : SqlCommenterQueryInfo Q

/-- Modelled from the spec: a `ContributionMap` is a mapping from string
key to string value produced by one contributor invocation
(`Record<string, string>` in the source types), modelled as an association
list in the object's key order. -/
abbrev ContributionMap := List (String × String)

/-- Modelled from the spec: the `MergedMap` formed by combining all
contribution maps, same representation as a contribution map. -/
abbrev MergedMap := List (String × String)

/-- Embedded from `src/packages/sqlcommenter/src/index.ts`
(`SqlCommenterPlugin`), with the spec's failure semantics: a plugin is a
function from the context to a contribution map, and per spec section 4.3 a
contributor may raise an error, modelled by `Except E`. -/
def SqlCommenterPlugin (Q E : Type) := SqlCommenterContext Q → Except E ContributionMap

/-- Modelled from the spec: construction of a compacted query descriptor.
The code that builds descriptors is not under `src/`; per the spec's
invariant (`Compacted.queries` is non-empty whenever constructed) a
compacted descriptor is always built from at least one single-query info. -/
def mkCompacted {Q : Type} (q : SqlCommenterSingleQueryInfo Q)
    (qs : List (SqlCommenterSingleQueryInfo Q)) : SqlCommenterQueryInfo Q :=
  SqlCommenterQueryInfo.compacted (q :: qs)

/-- The sixteen uppercase hexadecimal digit characters. -/
def hexTable : List Char :=
  ['0', '1', '2', '3', '4', '5', '6', '7', '8', '9', 'A', 'B', 'C', 'D', 'E', 'F']

/-- The hexadecimal digit character of `n % 16`. -/
def hexDigit (n : Nat) : Char := hexTable.getD (n % 16) '0'

/-- Whether `c` is a hexadecimal digit character (uppercase). -/
def isHexDigitChar (c : Char) : Bool := hexTable.contains c

/-- Modelled from the spec (section 4.1, Encoder, not under `src/`): the
characters that pass through component encoding unchanged are the ASCII
alphanumerics and the unreserved set `-`, `_`, `.`, `~`; additionally the
single quote survives encoding, as required by the escaping step of
section 4.2 and the escaping example of section 8 (`it's fine` encodes to
`it's%20fine`, the quote being handled afterwards by `escapeQuote`). -/
def isSafeChar (c : Char) : Bool :=
  decide (0x30 ≤ c.toNat ∧ c.toNat ≤ 0x39) ||
  decide (0x41 ≤ c.toNat ∧ c.toNat ≤ 0x5A) ||
  decide (0x61 ≤ c.toNat ∧ c.toNat ≤ 0x7A) ||
  decide (c.toNat = 0x2D) || decide (c.toNat = 0x5F) ||
  decide (c.toNat = 0x2E) || decide (c.toNat = 0x7E) ||
  decide (c.toNat = 0x27)

/-- The UTF-8 encoding of one character, as a list of byte values. -/
def utf8Bytes (c : Char) : List Nat :=
  let n := c.toNat
  if n < 0x80 then [n]
  else if n < 0x800 then
    [0xC0 + n / 0x40, 0x80 + n % 0x40]
  else if n < 0x10000 then
    [0xE0 + n / 0x1000, 0x80 + n / 0x40 % 0x40, 0x80 + n % 0x40]
  else
    [0xF0 + n / 0x40000, 0x80 + n / 0x1000 % 0x40, 0x80 + n / 0x40 % 0x40, 0x80 + n % 0x40]

/-- Percent-encodes a list of byte values: each byte `b` becomes the three
characters `%`, `hexDigit (b / 16)`, `hexDigit (b % 16)`. -/
def pctBytes : List Nat → List Char
  | [] => []
  | b :: bs => '%' :: hexDigit (b / 16) :: hexDigit (b % 16) :: pctBytes bs

/-- Modelled from the spec (section 4.1, Encoder, not under `src/`): one
character of component encoding: a safe character passes through unchanged,
any other character is percent-encoded byte-by-byte over its UTF-8 bytes. -/
def encodeChar (c : Char) : List Char :=
  if isSafeChar c then [c] else pctBytes (utf8Bytes c)

/-- Component encoding over a list of characters. -/
def encodeChars : List Char → List Char
  | [] => []
  | c :: cs => encodeChar c ++ encodeChars cs

/-- Modelled from the spec (section 4.1, Encoder, not under `src/`):
`encodeComponent` percent-encodes a string per the component-encoding rule
set. -/
def encodeComponent (s : String) : String := ⟨encodeChars s.data⟩

/-- Escaping of single quotes in a character list: every `'` becomes the
two-character sequence `\'`. -/
def escapeChars : List Char → List Char
  | [] => []
  | c :: cs => if c = '\'' then '\\' :: '\'' :: escapeChars cs else c :: escapeChars cs

/-- Modelled from the spec (section 4.1, Encoder, not under `src/`):
`escapeQuote` replaces every literal single quote of an already-encoded
value with backslash-quote. -/
def escapeQuote (encoded : String) : String := ⟨escapeChars encoded.data⟩

/-- Modelled from the spec (section 4.2, Merger, not under `src/`): store
`value` under `key`, overwriting an existing entry for `key` in place and
appending a new entry otherwise (the semantics of `result[key] = value` on
a JavaScript object). -/
def insertKV (m : MergedMap) (key value : String) : MergedMap :=
  if m.any (fun p => p.1 == key) then
    m.map (fun p => if p.1 == key then (key, value) else p)
  else
    m ++ [(key, value)]

/-- Modelled from the spec (section 4.2, Merger, not under `src/`): iterate
the contribution maps in order and, for each key of each map, set
`result[key] = value`, overwriting any existing entry (last write wins). -/
def merge (maps : List ContributionMap) : MergedMap :=
  maps.foldl (fun acc m => m.foldl (fun acc p => insertKV acc p.1 p.2) acc) []

/-- Lexicographic (codepoint) strict order on character lists. -/
def lexLt : List Char → List Char → Bool
  | [], [] => false
  | [], _ :: _ => true
  | _ :: _, [] => false
  | a :: as, b :: bs =>
    decide (a.toNat < b.toNat) || (decide (a.toNat = b.toNat) && lexLt as bs)

/-- Lexicographic (codepoint) order on character lists, reflexive form. -/
def lexLe : List Char → List Char → Bool
  | [], _ => true
  | _ :: _, [] => false
  | a :: as, b :: bs =>
    decide (a.toNat < b.toNat) || (decide (a.toNat = b.toNat) && lexLe as bs)

/-- Strict lexicographic byte/codepoint order on strings. -/
def strLt (a b : String) : Bool := lexLt a.data b.data

/-- Lexicographic byte/codepoint order on strings. -/
def strLe (a b : String) : Bool := lexLe a.data b.data

/-- Insert a key/value pair into a list sorted ascending by key. -/
def insertSorted (p : String × String) : List (String × String) → List (String × String)
  | [] => [p]
  | q :: qs => if strLe p.1 q.1 then p :: q :: qs else q :: insertSorted p qs

/-- Insertion sort of key/value pairs, ascending by key. -/
def sortPairs : List (String × String) → List (String × String)
  | [] => []
  | p :: ps => insertSorted p (sortPairs ps)

/-- Modelled from the spec (section 4.4, Formatter, not under `src/`): the
pairs of the comment, each key component-encoded and each value
component-encoded and then quote-escaped, sorted ascending by the encoded
key text. -/
def formatSegments (merged : MergedMap) : List (String × String) :=
  sortPairs (merged.map fun p => (encodeComponent p.1, escapeQuote (encodeComponent p.2)))

/-- One rendered segment `encodedKey='escapedEncodedValue'`. -/
def fmtSeg (p : String × String) : String := p.1 ++ "='" ++ p.2 ++ "'"

/-- Join rendered segments with a single comma, no surrounding spaces. -/
def joinComma : List String → String
  | [] => ""
  | [s] => s
  | s :: rest => s ++ "," ++ joinComma rest

/-- Modelled from the spec (section 4.4, Formatter, not under `src/`):
render a merged map as the canonical comment: empty map gives the empty
string, otherwise the sorted segments are joined with commas and wrapped in
`/*` and `*/` with no interior padding. -/
def format (merged : MergedMap) : String :=
  if merged.isEmpty then ""
  else "/*" ++ joinComma ((formatSegments merged).map fmtSeg) ++ "*/"

/-- Modelled from the spec (section 4.5, Appender, not under `src/`):
append a non-empty comment to the SQL text after a single separating
space; an empty comment leaves the SQL text unchanged. -/
def annotate (sql comment : String) : String :=
  if comment = "" then sql else sql ++ " " ++ comment

/-- Modelled from the spec (section 4.3, Contributor Runner, not under
`src/`): invoke each contributor once, synchronously, in array order,
passing the same context to all; an error raised by a contributor is not
caught and aborts the run. -/
def run {Q E : Type} : List (SqlCommenterPlugin Q E) → SqlCommenterContext Q →
    Except E (List ContributionMap)
  | [], _ => Except.ok []
  | c :: cs, ctx =>
    match c ctx with
    | Except.error e => Except.error e
    | Except.ok m =>
      match run cs ctx with
      | Except.error e => Except.error e
      | Except.ok ms => Except.ok (m :: ms)

/-- Modelled from the spec (section 6, pipeline entry point, not under
`src/`): run the contributors, merge, format and annotate; a contributor's
error propagates verbatim and no annotated SQL is produced in that case. -/
def pipeline {Q E : Type} (contributors : List (SqlCommenterPlugin Q E))
    (ctx : SqlCommenterContext Q) (sql : String) : Except E String :=
  match run contributors ctx with
  | Except.error e => Except.error e
  | Except.ok maps => Except.ok (annotate sql (format (merge maps)))

/-- Concatenation of a list of contribution maps in order. -/
def joinMaps : List ContributionMap → List (String × String)
  | [] => []
  | m :: ms => m ++ joinMaps ms

/-- The value of the last pair bound to `k` in a list of pairs, the claim's
reading of last-write-wins. -/
def lastVal : List (String × String) → String → Option String
  | [], _ => none
  | p :: ps, k =>
    match lastVal ps k with
    | some v => some v
    | none => if p.1 == k then some p.2 else none

/-- The value stored under `k` in a merged map: the first pair whose key is
`k` (keys are unique in a merged map). -/
def lookup : MergedMap → String → Option String
  | [], _ => none
  | p :: ps, k => if p.1 == k then some p.2 else lookup ps k

/-- Whether a character list is a non-empty run of `%XX` triples with
hexadecimal `X`s. -/
def isPercentRun : List Char → Bool
  | '%' :: h1 :: h2 :: rest =>
    isHexDigitChar h1 && isHexDigitChar h2 && (rest.isEmpty || isPercentRun rest)
  | _ => false

/-- Whether every single quote of a character list is preceded by a
backslash. -/
def noUnescapedQuote : List Char → Bool
  | [] => true
  | '\\' :: '\'' :: rest => noUnescapedQuote rest
  | '\'' :: _ => false
  | _ :: rest => noUnescapedQuote rest

/-- The numeric value of a hexadecimal digit character. -/
def hexVal (c : Char) : Nat :=
  if c.toNat ≤ 0x39 then c.toNat - 0x30
  else if c.toNat ≤ 0x46 then c.toNat - 0x37
  else c.toNat - 0x57

/-- Modelled from the spec (section 8, round-trip property, decoder not
under `src/`): percent-decoding of a character list, each `%XX` triple
becoming the character of the byte value `XX`. -/
def percentDecodeChars : List Char → List Char
  | [] => []
  | '%' :: h1 :: h2 :: rest => Char.ofNat (16 * hexVal h1 + hexVal h2) :: percentDecodeChars rest
  | c :: rest => c :: percentDecodeChars rest

/-- Un-escaping of quotes: every `\'` becomes `'`. -/
def unescapeChars : List Char → List Char
  | [] => []
  | '\\' :: '\'' :: rest => '\'' :: unescapeChars rest
  | c :: rest => c :: unescapeChars rest

/-- Modelled from the spec (section 8, round-trip property, decoder not
under `src/`): the value decoder, percent-decode then un-escape quotes. -/
def decodeValue (s : String) : String := ⟨unescapeChars (percentDecodeChars s.data)⟩

theorem char_toNat_inj {a b : Char} (h : a.toNat = b.toNat) : a = b := by
  rw [← Char.ofNat_toNat a, h, Char.ofNat_toNat]

theorem char_toNat_lt (c : Char) : c.toNat < 0x110000 := by
  rcases c.valid with h | ⟨_, h⟩ <;> simp only [Char.toNat] <;> omega

theorem lexLe_total (as bs : List Char) : lexLe as bs = true ∨ lexLe bs as = true := by
  induction as generalizing bs with
  | nil => left; rfl
  | cons a as ih =>
    cases bs with
    | nil => right; rfl
    | cons b bs =>
      simp only [lexLe, Bool.or_eq_true, Bool.and_eq_true, decide_eq_true_eq]
      rcases Nat.lt_trichotomy a.toNat b.toNat with h | h | h
      · exact Or.inl (Or.inl h)
      · rcases ih bs with h2 | h2
        · exact Or.inl (Or.inr ⟨h, h2⟩)
        · exact Or.inr (Or.inr ⟨h.symm, h2⟩)
      · exact Or.inr (Or.inl h)

theorem lexLe_trans : ∀ (as bs cs : List Char),
    lexLe as bs = true → lexLe bs cs = true → lexLe as cs = true := by
  intro as
  induction as with
  | nil => intro bs cs _ _; rfl
  | cons a as ih =>
    intro bs cs hab hbc
    cases bs with
    | nil => simp [lexLe] at hab
    | cons b bs =>
      cases cs with
      | nil => simp [lexLe] at hbc
      | cons c cs =>
        simp only [lexLe, Bool.or_eq_true, Bool.and_eq_true, decide_eq_true_eq] at hab hbc ⊢
        rcases hab with h1 | ⟨h1, h1'⟩
        · rcases hbc with h2 | ⟨h2, _⟩
          · exact Or.inl (Nat.lt_trans h1 h2)
          · exact Or.inl (h2 ▸ h1)
        · rcases hbc with h2 | ⟨h2, h2'⟩
          · exact Or.inl (h1 ▸ h2)
          · exact Or.inr ⟨h1.trans h2, ih bs cs h1' h2'⟩

theorem lexLt_of_lexLe_of_ne : ∀ (as bs : List Char),
    lexLe as bs = true → as ≠ bs → lexLt as bs = true := by
  intro as
  induction as with
  | nil =>
    intro bs _ hne
    cases bs with
    | nil => exact absurd rfl hne
    | cons b bs => rfl
  | cons a as ih =>
    intro bs hle hne
    cases bs with
    | nil => simp [lexLe] at hle
    | cons b bs =>
      simp only [lexLe, Bool.or_eq_true, Bool.and_eq_true, decide_eq_true_eq] at hle
      simp only [lexLt, Bool.or_eq_true, Bool.and_eq_true, decide_eq_true_eq]
      rcases hle with h | ⟨h, h'⟩
      · exact Or.inl h
      · have hab : a = b := char_toNat_inj h
        subst hab
        have hne' : as ≠ bs := fun hh => hne (by rw [hh])
        exact Or.inr ⟨rfl, ih bs h' hne'⟩

theorem strLe_total (a b : String) : strLe a b = true ∨ strLe b a = true :=
  lexLe_total a.data b.data

theorem strLe_trans {a b c : String} (h1 : strLe a b = true) (h2 : strLe b c = true) :
    strLe a c = true :=
  lexLe_trans a.data b.data c.data h1 h2

theorem strLt_of_strLe_of_ne {a b : String} (h1 : strLe a b = true) (h2 : a ≠ b) :
    strLt a b = true :=
  lexLt_of_lexLe_of_ne a.data b.data h1 fun hd => h2 (String.ext hd)

theorem insertSorted_perm (p : String × String) (l : List (String × String)) :
    (insertSorted p l).Perm (p :: l) := by
  induction l with
  | nil => exact List.Perm.refl _
  | cons q qs ih =>
    by_cases h : strLe p.1 q.1 = true
    · rw [insertSorted, if_pos h]
    · rw [insertSorted, if_neg h]
      exact (ih.cons q).trans (List.Perm.swap p q qs)

theorem insertSorted_pairwise (p : String × String) (l : List (String × String))
    (h : l.Pairwise fun x y => strLe x.1 y.1 = true) :
    (insertSorted p l).Pairwise fun x y => strLe x.1 y.1 = true := by
  induction l with
  | nil => simp [insertSorted]
  | cons q qs ih =>
    rcases List.pairwise_cons.mp h with ⟨hq, hqs⟩
    by_cases hle : strLe p.1 q.1 = true
    · rw [insertSorted, if_pos hle]
      refine List.pairwise_cons.mpr ⟨?_, h⟩
      intro y hy
      rcases List.mem_cons.mp hy with rfl | hy'
      · exact hle
      · exact strLe_trans hle (hq y hy')
    · rw [insertSorted, if_neg hle]
      have hqp : strLe q.1 p.1 = true := by
        rcases strLe_total p.1 q.1 with h1 | h1
        · exact absurd h1 hle
        · exact h1
      refine List.pairwise_cons.mpr ⟨?_, ih hqs⟩
      intro y hy
      have hy2 : y ∈ p :: qs := (insertSorted_perm p qs).mem_iff.mp hy
      rcases List.mem_cons.mp hy2 with rfl | hy3
      · exact hqp
      · exact hq y hy3

theorem sortPairs_perm (l : List (String × String)) : (sortPairs l).Perm l := by
  induction l with
  | nil => exact List.Perm.refl _
  | cons p ps ih => exact (insertSorted_perm p (sortPairs ps)).trans (ih.cons p)

theorem sortPairs_pairwise (l : List (String × String)) :
    (sortPairs l).Pairwise fun x y => strLe x.1 y.1 = true := by
  induction l with
  | nil => simp [sortPairs]
  | cons p ps ih => exact insertSorted_pairwise p (sortPairs ps) ih

theorem insertKV_keys (m : MergedMap) (k v : String) :
    (insertKV m k v).map Prod.fst =
      if m.any (fun p => p.1 == k) then m.map Prod.fst else m.map Prod.fst ++ [k] := by
  unfold insertKV
  by_cases h : m.any (fun p => p.1 == k) = true
  · rw [if_pos h, if_pos h, List.map_map]
    apply List.map_congr_left
    intro p _
    by_cases hp : (p.1 == k) = true
    · simp only [Function.comp_apply, hp, if_pos]
      exact (eq_of_beq hp).symm
    · simp only [Function.comp_apply, hp]
      rfl
  · rw [if_neg h, if_neg h, List.map_append]
    rfl

theorem insertKV_keys_nodup {m : MergedMap} (h : (m.map Prod.fst).Nodup) (k v : String) :
    ((insertKV m k v).map Prod.fst).Nodup := by
  rw [insertKV_keys]
  by_cases hc : m.any (fun p => p.1 == k) = true
  · rw [if_pos hc]; exact h
  · rw [if_neg hc]
    rw [List.nodup_append]
    refine ⟨h, List.nodup_singleton k, ?_⟩
    intro x hx hxk
    have hxk' : x = k := List.mem_singleton.mp hxk
    rcases List.mem_map.mp hx with ⟨p, hp, hpx⟩
    apply hc
    refine List.any_eq_true.mpr ⟨p, hp, beq_iff_eq.mpr ?_⟩
    rw [hpx, hxk']

theorem foldl_insertKV_keys_nodup (ps : List (String × String)) :
    ∀ (acc : MergedMap), (acc.map Prod.fst).Nodup →
      ((ps.foldl (fun a p => insertKV a p.1 p.2) acc).map Prod.fst).Nodup := by
  induction ps with
  | nil => intro acc h; exact h
  | cons p ps ih => intro acc h; exact ih _ (insertKV_keys_nodup h p.1 p.2)

theorem merge_keys_nodup (maps : List ContributionMap) : ((merge maps).map Prod.fst).Nodup := by
  suffices h : ∀ (acc : MergedMap), (acc.map Prod.fst).Nodup →
      ((maps.foldl (fun acc m => m.foldl (fun acc p => insertKV acc p.1 p.2) acc) acc).map
        Prod.fst).Nodup by
    exact h [] (by simp)
  induction maps with
  | nil => intro acc h; exact h
  | cons m ms ih => intro acc h; exact ih _ (foldl_insertKV_keys_nodup m acc h)

theorem map_update_of_not_mem (ps : List (String × String)) (k' v : String)
    (h : ps.any (fun p => p.1 == k') = false) :
    ps.map (fun p => if p.1 == k' then (k', v) else p) = ps := by
  have hall : ∀ p ∈ ps, (fun p => if p.1 == k' then (k', v) else p) p = id p := by
    intro p hp
    have hne : ¬ (p.1 == k') = true := List.any_eq_false.mp h p hp
    show (if p.1 == k' then (k', v) else p) = p
    rw [if_neg hne]
  rw [List.map_congr_left hall, List.map_id]

theorem lookup_map_update (ps : List (String × String)) (k' v k : String)
    (hpres : ps.any (fun p => p.1 == k') = true) :
    lookup (ps.map (fun p => if p.1 == k' then (k', v) else p)) k =
      if k' == k then some v else lookup ps k := by
  induction ps with
  | nil => simp at hpres
  | cons p ps ih =>
    rw [List.map_cons]
    by_cases hpk' : (p.1 == k') = true
    · rw [if_pos hpk']
      by_cases hkk : (k' == k) = true
      · rw [lookup, if_pos hkk, if_pos hkk]
      · have hpk : ¬ (p.1 == k) = true := by
          intro hc
          apply hkk
          rw [beq_iff_eq] at hpk' hc ⊢
          rw [← hpk', hc]
        rw [lookup, if_neg hkk, if_neg hkk, lookup, if_neg hpk]
        by_cases hps : ps.any (fun p => p.1 == k') = true
        · rw [ih hps, if_neg hkk]
        · rw [map_update_of_not_mem ps k' v (Bool.eq_false_iff.mpr hps)]
    · rw [if_neg hpk']
      have hps : ps.any (fun p => p.1 == k') = true := by
        rcases List.any_eq_true.mp hpres with ⟨q, hq, hqk⟩
        rcases List.mem_cons.mp hq with heq | hq'
        · exact absurd (heq ▸ hqk) hpk'
        · exact List.any_eq_true.mpr ⟨q, hq', hqk⟩
      by_cases hpk : (p.1 == k) = true
      · have hkk : ¬ (k' == k) = true := by
          intro hc
          apply hpk'
          rw [beq_iff_eq] at hpk hc ⊢
          rw [hpk, hc]
        rw [lookup, if_pos hpk, if_neg hkk, lookup, if_pos hpk]
      · rw [lookup, if_neg hpk, lookup, if_neg hpk, ih hps]

theorem lookup_append (xs ys : MergedMap) (k : String) :
    lookup (xs ++ ys) k =
      match lookup xs k with
      | some v => some v
      | none => lookup ys k := by
  induction xs with
  | nil => rfl
  | cons p ps ih =>
    rw [List.cons_append, lookup, lookup]
    by_cases hpk : (p.1 == k) = true
    · rw [if_pos hpk, if_pos hpk]
    · rw [if_neg hpk, if_neg hpk, ih]

theorem lookup_eq_none_of_any_false (m : MergedMap) (k : String)
    (h : m.any (fun p => p.1 == k) = false) : lookup m k = none := by
  induction m with
  | nil => rfl
  | cons p ps ih =>
    rw [List.any_cons, Bool.or_eq_false_iff] at h
    rw [lookup, if_neg (by rw [h.1]; exact Bool.false_ne_true)]
    exact ih h.2

theorem lookup_insertKV (m : MergedMap) (k' v k : String) :
    lookup (insertKV m k' v) k = if k' == k then some v else lookup m k := by
  unfold insertKV
  by_cases h : m.any (fun p => p.1 == k') = true
  · rw [if_pos h]
    exact lookup_map_update m k' v k h
  · rw [if_neg h, lookup_append]
    by_cases hkk : (k' == k) = true
    · have hnone : lookup m k = none := by
        apply lookup_eq_none_of_any_false
        rw [Bool.eq_false_iff]
        intro hc
        rcases List.any_eq_true.mp hc with ⟨p, hp, hpk⟩
        apply Bool.eq_false_iff.mp (Bool.eq_false_iff.mpr h)
        refine List.any_eq_true.mpr ⟨p, hp, ?_⟩
        rw [beq_iff_eq] at hpk hkk ⊢
        rw [hpk, hkk]
      rw [hnone, if_pos hkk]
      show (if k' == k then some v else lookup [] k) = some v
      rw [if_pos hkk]
    · rw [if_neg hkk]
      cases hm : lookup m k with
      | some v' => rfl
      | none =>
        show (if k' == k then some v else lookup [] k) = none
        rw [if_neg hkk]
        rfl

theorem lookup_foldl_insertKV (ps : List (String × String)) :
    ∀ (acc : MergedMap) (k : String),
      lookup (ps.foldl (fun a p => insertKV a p.1 p.2) acc) k =
        match lastVal ps k with
        | some v => some v
        | none => lookup acc k := by
  induction ps with
  | nil => intro acc k; rfl
  | cons p ps ih =>
    intro acc k
    rw [List.foldl_cons, ih]
    cases hl : lastVal ps k with
    | some v => simp only [lastVal, hl]
    | none =>
      simp only [lastVal, hl]
      rw [lookup_insertKV]
      by_cases hpk : (p.1 == k) = true
      · rw [if_pos hpk, if_pos hpk]
      · rw [if_neg hpk, if_neg hpk]

theorem hexDigit_mem_aux : ∀ m < 16, isHexDigitChar (hexTable.getD m '0') = true := by decide

theorem hexDigit_mem (n : Nat) : isHexDigitChar (hexDigit n) = true :=
  hexDigit_mem_aux (n % 16) (Nat.mod_lt n (by norm_num))

theorem hexDigit_inj_aux :
    ∀ a < 16, ∀ b < 16, hexTable.getD a '0' = hexTable.getD b '0' → a = b := by decide

theorem hexDigit_inj {a b : Nat} (ha : a < 16) (hb : b < 16) (h : hexDigit a = hexDigit b) :
    a = b := by
  have := hexDigit_inj_aux (a % 16) (Nat.mod_lt a (by norm_num)) (b % 16)
    (Nat.mod_lt b (by norm_num)) h
  rwa [Nat.mod_eq_of_lt ha, Nat.mod_eq_of_lt hb] at this

theorem utf8Bytes_ne_nil (c : Char) : utf8Bytes c ≠ [] := by
  simp only [utf8Bytes]
  split_ifs <;> simp

theorem utf8Bytes_lt_256 (c : Char) : ∀ b ∈ utf8Bytes c, b < 256 := by
  have hc := char_toNat_lt c
  simp only [utf8Bytes]
  split_ifs with h1 h2 h3 <;> intro b hb <;>
    simp only [List.mem_cons, List.mem_singleton, List.not_mem_nil, or_false] at hb <;>
    omega

theorem utf8Bytes_head_class (c : Char) : ∃ b r, utf8Bytes c = b :: r ∧
    ((b < 0x80 ∧ r.length = 0) ∨ (0xC0 ≤ b ∧ b < 0xE0 ∧ r.length = 1) ∨
     (0xE0 ≤ b ∧ b < 0xF0 ∧ r.length = 2) ∨ (0xF0 ≤ b ∧ b < 0x100 ∧ r.length = 3)) := by
  have hc := char_toNat_lt c
  simp only [utf8Bytes]
  split_ifs with h1 h2 h3
  · exact ⟨_, _, rfl, Or.inl ⟨h1, rfl⟩⟩
  · exact ⟨_, _, rfl, Or.inr (Or.inl ⟨by omega, by omega, rfl⟩)⟩
  · exact ⟨_, _, rfl, Or.inr (Or.inr (Or.inl ⟨by omega, by omega, rfl⟩))⟩
  · exact ⟨_, _, rfl, Or.inr (Or.inr (Or.inr ⟨by omega, by omega, rfl⟩))⟩

theorem utf8Bytes_inj {c₁ c₂ : Char} (h : utf8Bytes c₁ = utf8Bytes c₂) : c₁ = c₂ := by
  have h1 := char_toNat_lt c₁
  have h2 := char_toNat_lt c₂
  apply char_toNat_inj
  simp only [utf8Bytes] at h
  split_ifs at h <;> simp only [List.cons.injEq, and_true] at h <;> omega

theorem pctBytes_length (bs : List Nat) : (pctBytes bs).length = 3 * bs.length := by
  induction bs with
  | nil => rfl
  | cons b bs ih => simp [pctBytes, ih]; ring

theorem pctBytes_inj : ∀ {bs₁ bs₂ : List Nat}, (∀ b ∈ bs₁, b < 256) → (∀ b ∈ bs₂, b < 256) →
    pctBytes bs₁ = pctBytes bs₂ → bs₁ = bs₂ := by
  intro bs₁
  induction bs₁ with
  | nil =>
    intro bs₂ _ _ h
    cases bs₂ with
    | nil => rfl
    | cons b bs => simp [pctBytes] at h
  | cons b bs ih =>
    intro bs₂ hb1 hb2 h
    cases bs₂ with
    | nil => simp [pctBytes] at h
    | cons b' bs' =>
      simp only [pctBytes, List.cons.injEq, true_and] at h
      obtain ⟨e1, e2, e3⟩ := h
      have hblt : b < 256 := hb1 b (List.mem_cons_self b bs)
      have hblt' : b' < 256 := hb2 b' (List.mem_cons_self b' bs')
      have d1 : b / 16 = b' / 16 := hexDigit_inj (by omega) (by omega) e1
      have d2 : b % 16 = b' % 16 := hexDigit_inj (by omega) (by omega) e2
      have hb : b = b' := by omega
      have hrest : bs = bs' :=
        ih (fun x hx => hb1 x (List.mem_cons_of_mem b hx))
          (fun x hx => hb2 x (List.mem_cons_of_mem b' hx)) e3
      rw [hb, hrest]

theorem isPercentRun_pctBytes : ∀ (bs : List Nat), bs ≠ [] → isPercentRun (pctBytes bs) = true := by
  intro bs
  induction bs with
  | nil => intro h; exact absurd rfl h
  | cons b bs ih =>
    intro _
    cases bs with
    | nil => simp [pctBytes, isPercentRun, hexDigit_mem]
    | cons b' bs' =>
      have hr := ih (List.cons_ne_nil b' bs')
      simp only [pctBytes, isPercentRun, hexDigit_mem, Bool.and_true, Bool.true_and,
        Bool.and_eq_true, Bool.or_eq_true] at hr ⊢
      exact Or.inr hr

theorem encodeChar_ne_nil (c : Char) : encodeChar c ≠ [] := by
  unfold encodeChar
  split_ifs
  · simp
  · obtain ⟨b, r, hbr, _⟩ := utf8Bytes_head_class c
    rw [hbr]
    simp [pctBytes]

theorem safeChar_ne_percent {c : Char} (h : isSafeChar c = true) : c ≠ '%' := by
  intro hc
  rw [hc] at h
  exact absurd h (by decide)

theorem encodeChar_prefix {c₁ c₂ : Char} {t₁ t₂ : List Char}
    (h : encodeChar c₁ ++ t₁ = encodeChar c₂ ++ t₂) : c₁ = c₂ ∧ t₁ = t₂ := by
  unfold encodeChar at h
  by_cases s1 : isSafeChar c₁ = true <;> by_cases s2 : isSafeChar c₂ = true
  · rw [if_pos s1, if_pos s2] at h
    simp only [List.cons_append, List.nil_append, List.cons.injEq] at h
    exact h
  · rw [if_pos s1, if_neg s2] at h
    obtain ⟨b, r, hbr, _⟩ := utf8Bytes_head_class c₂
    rw [hbr] at h
    simp only [pctBytes, List.cons_append, List.nil_append, List.cons.injEq] at h
    exact absurd h.1 (safeChar_ne_percent s1)
  · rw [if_neg s1, if_pos s2] at h
    obtain ⟨b, r, hbr, _⟩ := utf8Bytes_head_class c₁
    rw [hbr] at h
    simp only [pctBytes, List.cons_append, List.nil_append, List.cons.injEq] at h
    exact absurd h.1.symm (safeChar_ne_percent s2)
  · rw [if_neg s1, if_neg s2] at h
    obtain ⟨b₁, r₁, hbr₁, hcl₁⟩ := utf8Bytes_head_class c₁
    obtain ⟨b₂, r₂, hbr₂, hcl₂⟩ := utf8Bytes_head_class c₂
    rw [hbr₁, hbr₂] at h
    simp only [pctBytes, List.cons_append, List.cons.injEq, true_and] at h
    obtain ⟨e1, e2, e3⟩ := h
    have m₁ : ∀ x ∈ b₁ :: r₁, x < 256 := fun x hx => utf8Bytes_lt_256 c₁ x (hbr₁ ▸ hx)
    have m₂ : ∀ x ∈ b₂ :: r₂, x < 256 := fun x hx => utf8Bytes_lt_256 c₂ x (hbr₂ ▸ hx)
    have hb₁ : b₁ < 256 := m₁ b₁ (List.mem_cons_self b₁ r₁)
    have hb₂ : b₂ < 256 := m₂ b₂ (List.mem_cons_self b₂ r₂)
    have d1 : b₁ / 16 = b₂ / 16 := hexDigit_inj (by omega) (by omega) e1
    have d2 : b₁ % 16 = b₂ % 16 := hexDigit_inj (by omega) (by omega) e2
    have hb : b₁ = b₂ := by omega
    have hrlen : r₁.length = r₂.length := by
      rcases hcl₁ with ⟨hb1, hl1⟩ | ⟨hb1, hb1', hl1⟩ | ⟨hb1, hb1', hl1⟩ | ⟨hb1, hb1', hl1⟩ <;>
        rcases hcl₂ with ⟨hb2, hl2⟩ | ⟨hb2, hb2', hl2⟩ | ⟨hb2, hb2', hl2⟩ | ⟨hb2, hb2', hl2⟩ <;>
        omega
    have hlen : (pctBytes r₁).length = (pctBytes r₂).length := by
      rw [pctBytes_length, pctBytes_length, hrlen]
    obtain ⟨hpeq, hteq⟩ := List.append_inj e3 hlen
    have hr : r₁ = r₂ :=
      pctBytes_inj (fun x hx => m₁ x (List.mem_cons_of_mem b₁ hx))
        (fun x hx => m₂ x (List.mem_cons_of_mem b₂ hx)) hpeq
    refine ⟨utf8Bytes_inj ?_, hteq⟩
    rw [hbr₁, hbr₂, hb, hr]

theorem encodeChars_inj : ∀ (xs ys : List Char), encodeChars xs = encodeChars ys → xs = ys := by
  intro xs
  induction xs with
  | nil =>
    intro ys h
    cases ys with
    | nil => rfl
    | cons y ys =>
      rw [encodeChars, encodeChars] at h
      exact absurd (List.append_eq_nil.mp h.symm).1 (encodeChar_ne_nil y)
  | cons x xs ih =>
    intro ys h
    cases ys with
    | nil =>
      rw [encodeChars, encodeChars] at h
      exact absurd (List.append_eq_nil.mp h).1 (encodeChar_ne_nil x)
    | cons y ys =>
      rw [encodeChars, encodeChars] at h
      obtain ⟨h1, h2⟩ := encodeChar_prefix h
      rw [h1, ih ys h2]

theorem encodeComponent_inj : Function.Injective encodeComponent := by
  intro s t h
  apply String.ext
  exact encodeChars_inj s.data t.data (congrArg String.data h)

theorem merge_eq_foldl_joinMaps (maps : List ContributionMap) :
    merge maps = (joinMaps maps).foldl (fun a p => insertKV a p.1 p.2) [] := by
  suffices h : ∀ (acc : MergedMap),
      maps.foldl (fun acc m => m.foldl (fun acc p => insertKV acc p.1 p.2) acc) acc =
        (joinMaps maps).foldl (fun a p => insertKV a p.1 p.2) acc by
    exact h []
  induction maps with
  | nil => intro acc; rfl
  | cons m ms ih =>
    intro acc
    rw [List.foldl_cons, joinMaps, List.foldl_append]
    exact ih _

theorem formatSegments_keys_eq (m : MergedMap) :
    ((m.map fun p => (encodeComponent p.1, escapeQuote (encodeComponent p.2))).map Prod.fst) =
      (m.map Prod.fst).map encodeComponent := by
  rw [List.map_map, List.map_map]
  rfl

theorem formatSegments_merge_sorted (maps : List ContributionMap) :
    ((formatSegments (merge maps)).map Prod.fst).Pairwise (fun a b => strLt a b = true) ∧
    ((formatSegments (merge maps)).map Prod.fst).Nodup := by
  have hnodupraw : ((merge maps).map Prod.fst).Nodup := merge_keys_nodup maps
  have hnodupenc : (((merge maps).map Prod.fst).map encodeComponent).Nodup :=
    List.Nodup.map encodeComponent_inj hnodupraw
  have hperm : ((formatSegments (merge maps)).map Prod.fst).Perm
      (((merge maps).map Prod.fst).map encodeComponent) := by
    rw [← formatSegments_keys_eq]
    exact (sortPairs_perm _).map Prod.fst
  have hnodup : ((formatSegments (merge maps)).map Prod.fst).Nodup :=
    hperm.symm.nodup hnodupenc
  have hle : (formatSegments (merge maps)).Pairwise (fun x y => strLe x.1 y.1 = true) :=
    sortPairs_pairwise _
  have hne : (formatSegments (merge maps)).Pairwise (fun x y => x.1 ≠ y.1) :=
    List.pairwise_map.mp hnodup
  have hlt : (formatSegments (merge maps)).Pairwise (fun x y => strLt x.1 y.1 = true) :=
    (hle.and hne).imp fun h => strLt_of_strLe_of_ne h.1 h.2
  exact ⟨List.pairwise_map.mpr hlt, hnodup⟩

theorem pipeline_error_iff {Q E : Type} (cs : List (SqlCommenterPlugin Q E))
    (ctx : SqlCommenterContext Q) (sql : String) (e : E) :
    pipeline cs ctx sql = Except.error e ↔ run cs ctx = Except.error e := by
  unfold pipeline
  cases hr : run cs ctx with
  | error e' => simp
  | ok maps => simp

theorem run_error_mem {Q E : Type} (ctx : SqlCommenterContext Q) :
    ∀ (cs : List (SqlCommenterPlugin Q E)) (e : E), run cs ctx = Except.error e →
      ∃ c ∈ cs, c ctx = Except.error e := by
  intro cs
  induction cs with
  | nil => intro e h; exact absurd h (by simp [run])
  | cons c cs ih =>
    intro e h
    rw [run] at h
    cases hc : c ctx with
    | error e' =>
      rw [hc] at h
      have h' : (Except.error e' : Except E (List ContributionMap)) = Except.error e := h
      injection h' with he
      exact ⟨c, List.mem_cons_self c cs, by rw [hc, he]⟩
    | ok m =>
      rw [hc] at h
      cases hr : run cs ctx with
      | error e'' =>
        rw [hr] at h
        have h' : (Except.error e'' : Except E (List ContributionMap)) = Except.error e := h
        injection h' with he
        obtain ⟨c', hm, he'⟩ := ih e (he ▸ hr)
        exact ⟨c', List.mem_cons_of_mem c hm, he'⟩
      | ok ms =>
        rw [hr] at h
        exact absurd h (by simp)

theorem run_ok_of_all_ok {Q E : Type} (ctx : SqlCommenterContext Q) :
    ∀ (cs : List (SqlCommenterPlugin Q E)), (∀ c ∈ cs, ∃ m, c ctx = Except.ok m) →
      ∃ maps, run cs ctx = Except.ok maps := by
  intro cs
  induction cs with
  | nil => intro _; exact ⟨[], rfl⟩
  | cons c cs ih =>
    intro hall
    obtain ⟨m, hm⟩ := hall c (List.mem_cons_self c cs)
    obtain ⟨maps, hmaps⟩ := ih fun c' hc' => hall c' (List.mem_cons_of_mem c hc')
    refine ⟨m :: maps, ?_⟩
    rw [run, hm, hmaps]

/-- Claim C1: for the contributor list returning `{application: "my-app",
version: "1.0.0"}` and then `{model: "User"}`, and the SQL text
`SELECT "id" FROM "User"`, the full pipeline (run, merge, format, annotate)
returns exactly
`SELECT "id" FROM "User" /*application='my-app',model='User',version='1.0.0'*/`. -/
theorem C1_end_to_end :
    pipeline
      ([fun _ => Except.ok [("application", "my-app"), ("version", "1.0.0")],
        fun _ => Except.ok [("model", "User")]] : List (SqlCommenterPlugin Unit Unit))
      ⟨SqlCommenterQueryInfo.single ⟨some "User", "findMany", ()⟩⟩
      "SELECT \"id\" FROM \"User\"" =
      Except.ok
        "SELECT \"id\" FROM \"User\" /*application='my-app',model='User',version='1.0.0'*/" := by
  rfl

/-- Claim C2, counterexample: the non-empty list of contribution mappings
`[{}]` (one contributor returning the empty mapping) merges to the empty
map and formats to the empty string, which is not of the form
`/*seg1,seg2,...*/` (it has no characters at all). -/
theorem C2_counterexample :
    format (merge [([] : ContributionMap)]) = "" ∧
    (format (merge [([] : ContributionMap)])).data = [] :=
  ⟨rfl, rfl⟩

/-- Claim C2 (amended): for every list of contribution mappings whose
merged map is non-empty, merge followed by format yields the string
`/*seg1,seg2,...*/` whose key segments appear in strictly ascending
lexicographic (byte/codepoint) order of the encoded key text, with no
duplicate keys in the output. -/
theorem C2_sorted_keys (maps : List ContributionMap) (h : merge maps ≠ []) :
    ((formatSegments (merge maps)).map Prod.fst).Pairwise (fun a b => strLt a b = true) ∧
    ((formatSegments (merge maps)).map Prod.fst).Nodup ∧
    format (merge maps) =
      "/*" ++ joinComma ((formatSegments (merge maps)).map fmtSeg) ++ "*/" := by
  obtain ⟨h1, h2⟩ := formatSegments_merge_sorted maps
  refine ⟨h1, h2, ?_⟩
  rw [format, if_neg]
  simp [List.isEmpty_iff, h]

/-- Claim C2, witness: the amended claim at the concrete contribution
mappings `[{b: "2"}, {a: "1"}]`. -/
theorem C2_sorted_keys_witness :
    ((formatSegments (merge [[("b", "2")], [("a", "1")]])).map Prod.fst).Pairwise
        (fun a b => strLt a b = true) ∧
    ((formatSegments (merge [[("b", "2")], [("a", "1")]])).map Prod.fst).Nodup ∧
    format (merge [[("b", "2")], [("a", "1")]]) =
      "/*" ++ joinComma ((formatSegments (merge [[("b", "2")], [("a", "1")]])).map fmtSeg) ++
        "*/" :=
  C2_sorted_keys [[("b", "2")], [("a", "1")]] (by decide)

/-- Claim C3: merge sets `result[key] = value` for each key of each map in
sequence order, so the value stored under any key is the value of the last
pair bound to that key across the concatenated maps (the latest map wins);
in particular, for the two maps `{a: "1"}` then `{a: "2"}` the merged value
for `a` is `"2"`. -/
theorem C3_last_write_wins (maps : List ContributionMap) (k : String) :
    lookup (merge maps) k = lastVal (joinMaps maps) k ∧
    lookup (merge [[("a", "1")], [("a", "2")]]) "a" = some "2" := by
  constructor
  · rw [merge_eq_foldl_joinMaps, lookup_foldl_insertKV]
    cases lastVal (joinMaps maps) k with
    | some v => rfl
    | none => rfl
  · rfl

/-- Claim C4: `encodeComponent` maps the empty string to the empty string,
is total over all strings, passes ASCII alphanumerics and `-`, `_`, `.`,
`~` through unchanged, and percent-encodes every unsafe character —
including `=`, `,`, `/`, `*`, the space, and every non-ASCII codepoint —
as a run of `%XX` sequences with hexadecimal digits. -/
theorem C4_encode_spec :
    encodeComponent "" = "" ∧
    (∀ s : String, ∃ t : String, encodeComponent s = t) ∧
    (∀ c : Char,
      (0x30 ≤ c.toNat ∧ c.toNat ≤ 0x39) ∨ (0x41 ≤ c.toNat ∧ c.toNat ≤ 0x5A) ∨
        (0x61 ≤ c.toNat ∧ c.toNat ≤ 0x7A) → encodeChar c = [c]) ∧
    encodeChar '-' = ['-'] ∧ encodeChar '_' = ['_'] ∧
    encodeChar '.' = ['.'] ∧ encodeChar '~' = ['~'] ∧
    (∀ c : Char, isSafeChar c = false → isPercentRun (encodeChar c) = true) ∧
    isSafeChar '=' = false ∧ isSafeChar ',' = false ∧ isSafeChar '/' = false ∧
    isSafeChar '*' = false ∧ isSafeChar ' ' = false ∧
    (∀ c : Char, 0x80 ≤ c.toNat → isSafeChar c = false) := by
  refine ⟨rfl, fun s => ⟨_, rfl⟩, ?_, rfl, rfl, rfl, rfl, ?_, by decide, by decide, by decide,
    by decide, by decide, ?_⟩
  · intro c hc
    rw [encodeChar, if_pos]
    simp only [isSafeChar, Bool.or_eq_true, decide_eq_true_eq]
    tauto
  · intro c hc
    rw [encodeChar, if_neg (by rw [hc]; exact Bool.false_ne_true)]
    exact isPercentRun_pctBytes _ (utf8Bytes_ne_nil c)
  · intro c hc
    simp only [isSafeChar, Bool.or_eq_false_iff, decide_eq_false_iff_not]
    omega

/-- Claim C4, witness: the alphanumeric clause at `A`, the unsafe clause at
`*`, and the non-ASCII clause at `é`. -/
theorem C4_encode_spec_witness :
    encodeChar 'A' = ['A'] ∧ isPercentRun (encodeChar '*') = true ∧ isSafeChar 'é' = false := by
  obtain ⟨-, -, halnum, -, -, -, -, hunsafe, -, -, -, hstar, -, hge⟩ := C4_encode_spec
  exact ⟨halnum 'A' (by decide), hunsafe '*' hstar, hge 'é' (by decide)⟩

/-- Claim C5: for the contribution map `{route: "it's fine"}`, the
formatted segment for `route` is literally `route='it\'s%20fine'`: the
space is percent-encoded as `%20`, the single quote is escaped as
backslash-quote after encoding, and the value sits inside single quotes. -/
theorem C5_escaping_example :
    encodeComponent "it's fine" = "it's%20fine" ∧
    escapeQuote (encodeComponent "it's fine") = "it\\'s%20fine" ∧
    fmtSeg (encodeComponent "route", escapeQuote (encodeComponent "it's fine")) =
      "route='it\\'s%20fine'" ∧
    format (merge [[("route", "it's fine")]]) = "/*route='it\\'s%20fine'*/" :=
  ⟨rfl, rfl, rfl, rfl⟩

/-- Claim C6: for the input `a=b, c'd`, the encoded-then-escaped value
contains no raw comma, equals sign or space and no unescaped single quote,
and the decoder (percent-decode, then un-escape quotes) recovers the
original string exactly. -/
theorem C6_roundtrip :
    ((escapeQuote (encodeComponent "a=b, c'd")).data.all
      fun c => !(c == ',') && !(c == '=') && !(c == ' ')) = true ∧
    noUnescapedQuote (escapeQuote (encodeComponent "a=b, c'd")).data = true ∧
    decodeValue (escapeQuote (encodeComponent "a=b, c'd")) = "a=b, c'd" := by
  refine ⟨?_, ?_, ?_⟩ <;> decide

/-- Claim C7: with an empty contributor list the run yields no maps, the
merged map is empty, format of it is the empty string, and `annotate` with
the empty comment returns the SQL text unchanged, so the whole pipeline
returns the SQL byte-identical. -/
theorem C7_empty_pipeline {Q E : Type} (ctx : SqlCommenterContext Q) (sql : String) :
    run ([] : List (SqlCommenterPlugin Q E)) ctx = Except.ok [] ∧
    merge [] = ([] : MergedMap) ∧
    format (merge []) = "" ∧
    annotate sql "" = sql ∧
    pipeline ([] : List (SqlCommenterPlugin Q E)) ctx sql = Except.ok sql :=
  ⟨rfl, rfl, rfl, rfl, rfl⟩

/-- Claim C8: for every SQL string and non-empty comment, `annotate`
returns the SQL followed by exactly one separating space and the comment;
the SQL text is preserved unmodified as a prefix of the result. -/
theorem C8_annotate_append (sql comment : String) (h : comment ≠ "") :
    annotate sql comment = sql ++ " " ++ comment ∧
    ∃ rest : String, annotate sql comment = sql ++ rest := by
  rw [annotate, if_neg h]
  exact ⟨rfl, " " ++ comment, by rw [String.append_assoc]⟩

/-- Claim C8, witness: the appender at the SQL `SELECT 1` and the comment
`/*a='b'*/`. -/
theorem C8_annotate_append_witness :
    annotate "SELECT 1" "/*a='b'*/" = "SELECT 1" ++ " " ++ "/*a='b'*/" ∧
    ∃ rest : String, annotate "SELECT 1" "/*a='b'*/" = "SELECT 1" ++ rest :=
  C8_annotate_append "SELECT 1" "/*a='b'*/" (by decide)

/-- Claim C9: the pipeline fails exactly when the run of the contributors
fails; a failing run exhibits a contributor whose error is propagated
verbatim; and when every contributor returns a map no part of the core
(encoding, merging, formatting, appending) fails: the pipeline returns an
annotated SQL. -/
theorem C9_error_propagation {Q E : Type} (cs : List (SqlCommenterPlugin Q E))
    (ctx : SqlCommenterContext Q) (sql : String) :
    (∀ e : E, pipeline cs ctx sql = Except.error e ↔ run cs ctx = Except.error e) ∧
    (∀ e : E, run cs ctx = Except.error e → ∃ c ∈ cs, c ctx = Except.error e) ∧
    ((∀ c ∈ cs, ∃ m, c ctx = Except.ok m) →
      ∃ out, pipeline cs ctx sql = Except.ok out) := by
  refine ⟨fun e => pipeline_error_iff cs ctx sql e, fun e => run_error_mem ctx cs e, ?_⟩
  intro hall
  obtain ⟨maps, hmaps⟩ := run_ok_of_all_ok ctx cs hall
  refine ⟨annotate sql (format (merge maps)), ?_⟩
  unfold pipeline
  rw [hmaps]

/-- Claim C9, witness: a contributor raising `"boom"` makes the pipeline
return the error `"boom"`, and a contributor list of one successful
contributor makes the pipeline return an annotated SQL. -/
theorem C9_error_propagation_witness :
    pipeline ([fun _ => Except.error "boom"] : List (SqlCommenterPlugin Unit String))
        ⟨SqlCommenterQueryInfo.single ⟨none, "queryRaw", ()⟩⟩ "SELECT 1" =
      Except.error "boom" ∧
    ∃ out,
      pipeline ([fun _ => Except.ok [("a", "1")]] : List (SqlCommenterPlugin Unit String))
          ⟨SqlCommenterQueryInfo.single ⟨none, "queryRaw", ()⟩⟩ "SELECT 1" =
        Except.ok out := by
  constructor
  · exact ((C9_error_propagation _ _ _).1 "boom").mpr rfl
  · refine (C9_error_propagation _ _ _).2.2 ?_
    intro c hc
    rw [List.mem_singleton.mp hc]
    exact ⟨[("a", "1")], rfl⟩

/-- Claim C10: every compacted query descriptor that is constructed has a
non-empty list of single-query infos. -/
theorem C10_compacted_nonempty {Q : Type} (q : SqlCommenterSingleQueryInfo Q)
    (qs : List (SqlCommenterSingleQueryInfo Q)) :
    ∃ l, mkCompacted q qs = SqlCommenterQueryInfo.compacted l ∧ l ≠ [] :=
  ⟨q :: qs, rfl, List.cons_ne_nil q qs⟩

end SqlCommenter
